import Mathlib

/-!
Verification of the galaxy-history generation and stochastic star-formation
engine of `ares/populations/GalaxyEnsemble.py`.

Arrays are embedded as `List ℚ` (per-trajectory time series) or
`List (List ℚ)` (ensemble, rows = trajectories).  numpy's `argmin` is embedded
as the index of the first minimal element.  Fragments of `_gen_stars`,
`_gen_halo_histories`, `_gen_galaxy_histories`, `tile`, `noise_lognormal` and
`deposit_in` are translated directly from the source.
-/

namespace Ares

/-- Minimum value of a list (0 on the empty list, never used there). -/
def listMin : List ℚ → ℚ
  | [] => 0
  | [x] => x
  | x :: y :: xs => min x (listMin (y :: xs))

/-- First index of the minimum of a list (numpy `argmin` semantics:
ties resolved to the earliest index).  Returns 0 on the empty list. -/
def argmin : List ℚ → ℕ
  | [] => 0
  | x :: xs =>
    if xs = [] then 0
    else if x ≤ listMin xs then 0 else argmin xs + 1

theorem listMin_le {l : List ℚ} {a : ℚ} (ha : a ∈ l) : listMin l ≤ a := by
  induction l with
  | nil => cases ha
  | cons x xs ih =>
    cases xs with
    | nil =>
      simp only [List.mem_singleton] at ha
      simp [listMin, ha]
    | cons y ys =>
      rcases List.mem_cons.mp ha with h | h
      · simp [listMin, h, min_le_left]
      · exact le_trans (by simp [listMin, min_le_right]) (ih h)

theorem argmin_lt_length {l : List ℚ} (h : l ≠ []) : argmin l < l.length := by
  induction l with
  | nil => exact absurd rfl h
  | cons x xs ih =>
    by_cases hxs : xs = []
    · simp [argmin, hxs]
    · by_cases hle : x ≤ listMin xs
      · simp [argmin, hxs, hle]
      · simpa [argmin, hxs, hle, Nat.succ_lt_succ_iff] using ih hxs

theorem getD_argmin_eq_listMin {l : List ℚ} (h : l ≠ []) :
    l.getD (argmin l) 0 = listMin l := by
  induction l with
  | nil => exact absurd rfl h
  | cons x xs ih =>
    by_cases hxs : xs = []
    · subst hxs; simp [argmin, listMin]
    · by_cases hle : x ≤ listMin xs
      · obtain ⟨y, ys, rfl⟩ := List.exists_cons_of_ne_nil hxs
        simp only [argmin, hxs, hle, if_false, if_true]
        simp only [List.getD_cons_zero, listMin]
        exact (min_eq_left hle).symm
      · obtain ⟨y, ys, hyys⟩ := List.exists_cons_of_ne_nil hxs
        have h1 : argmin (x :: xs) = argmin xs + 1 := by
          simp [argmin, hxs, hle]
        have h2 : listMin (x :: xs) = listMin xs := by
          rw [hyys]
          simp only [listMin, ← hyys]
          exact min_eq_right (le_of_not_le hle)
        rw [h1, h2, List.getD_cons_succ]
        exact ih hxs

theorem getD_argmin_le {l : List ℚ} (h : l ≠ []) {j : ℕ} (hj : j < l.length) :
    l.getD (argmin l) 0 ≤ l.getD j 0 := by
  rw [getD_argmin_eq_listMin h, List.getD_eq_getElem l 0 hj]
  exact listMin_le (List.getElem_mem hj)

theorem getD_map_abs {l : List ℚ} (f : ℚ → ℚ) {j : ℕ} (hj : j < l.length) :
    (l.map f).getD j 0 = f (l.getD j 0) := by
  induction l generalizing j with
  | nil => simp at hj
  | cons x xs ih =>
    cases j with
    | zero => simp
    | succ k =>
      simp only [List.map_cons, List.getD_cons_succ]
      exact ih (Nat.lt_of_succ_lt_succ hj)

theorem getD_drop (l : List ℚ) (i j : ℕ) :
    (l.drop i).getD j 0 = l.getD (i + j) 0 := by
  induction l generalizing i with
  | nil => simp
  | cons x xs ih =>
    cases i with
    | zero => simp
    | succ k =>
      simp only [List.drop_succ_cons, List.getD_cons_succ, Nat.succ_add]
      exact ih k

/-- `GalaxyEnsemble.deposit_in`: given current time `tnow` and a requested
`delay`, find the grid index nearest `tnow`, then among the future part of the
grid the index whose offset from `tnow` is nearest the delay. -/
def deposit_in (t : List ℚ) (tnow delay : ℚ) : ℕ :=
  let inow := argmin (t.map (fun x => |tnow - x|))
  let tfut := t.drop inow
  let ifut := argmin (tfut.map (fun x => |(x - tnow) - delay|))
  inow + ifut

/-- C10: for a current time inside a nonempty time grid and a nonnegative
delay, `deposit_in` returns an index at least the index of the grid point
nearest `tnow` (it never deposits before the current step) and at most the
last grid index. -/
theorem deposit_in_bounds (t : List ℚ) (tnow delay : ℚ)
    (hne : t ≠ []) (hdelay : 0 ≤ delay)
    (hlo : t.getD 0 0 ≤ tnow) (hhi : tnow ≤ t.getD (t.length - 1) 0) :
    argmin (t.map (fun x => |tnow - x|)) ≤ deposit_in t tnow delay ∧
      deposit_in t tnow delay < t.length := by
  have hlen : 0 < t.length := List.length_pos.mpr hne
  have hinow : argmin (t.map (fun x => |tnow - x|)) < t.length := by
    have := argmin_lt_length (l := t.map (fun x => |tnow - x|))
      (by simpa using hne)
    simpa using this
  constructor
  · exact Nat.le_add_right _ _
  · have hfut : t.drop (argmin (t.map (fun x => |tnow - x|))) ≠ [] := by
      intro hcon
      have := List.drop_eq_nil_iff.mp hcon
      omega
    have hifut := argmin_lt_length
      (l := (t.drop (argmin (t.map (fun x => |tnow - x|)))).map
        (fun x => |(x - tnow) - delay|)) (by simpa using hfut)
    simp only [List.length_map, List.length_drop] at hifut
    have hdef : deposit_in t tnow delay =
        argmin (t.map (fun x => |tnow - x|)) +
          argmin ((t.drop (argmin (t.map (fun x => |tnow - x|)))).map
            (fun x => |(x - tnow) - delay|)) := rfl
    rw [hdef]
    omega

/-- Witness for C10 on a concrete grid. -/
theorem deposit_in_bounds_witness :
    ([0, 10, 20] : List ℚ) ≠ [] ∧ (0:ℚ) ≤ 5 ∧
      (([0, 10, 20] : List ℚ).getD 0 0 ≤ 10 ∧
        (10:ℚ) ≤ ([0, 10, 20] : List ℚ).getD (([0, 10, 20] : List ℚ).length - 1) 0) ∧
      (argmin (([0, 10, 20] : List ℚ).map (fun x => |10 - x|)) ≤
          deposit_in [0, 10, 20] 10 5 ∧
        deposit_in [0, 10, 20] 10 5 < ([0, 10, 20] : List ℚ).length) :=
  ⟨by decide, by norm_num, ⟨by norm_num, by norm_num⟩,
    deposit_in_bounds [0, 10, 20] 10 5 (by decide) (by norm_num)
      (by norm_num) (by norm_num)⟩

/-- Contiguous row replication, the kernel of `np.repeat(arr, thin, axis=0)`:
each row is repeated `thin` times in place. -/
def repRows (thin : ℕ) : List (List ℚ) → List (List ℚ)
  | [] => []
  | r :: rs => List.replicate thin r ++ repRows thin rs

/-- `GalaxyEnsemble.tile`: expand an ensemble to `thin` times its size,
bundling the `thin` copies of each source row contiguously; `thin` of 0 or 1
returns a copy; with `renorm` the replicated values are divided by `thin`. -/
def tile (arr : List (List ℚ)) (thin : ℕ) (renorm : Bool) : List (List ℚ) :=
  if thin = 0 ∨ thin = 1 then arr
  else
    let new := repRows thin arr
    if renorm then new.map (fun row => row.map (fun x => x / (thin : ℚ)))
    else new

/-- Functional in-place update of one cell of a 2-D array. -/
def setCell (m : List (List ℚ)) (i j : ℕ) (v : ℚ) : List (List ℚ) :=
  m.set i ((m.getD i []).set j v)

/-- Heap of numpy arrays, indexed by identity: `tile` allocates its result at
a fresh identity (`arr.copy()` / `np.repeat` both allocate). -/
def Store : Type := ℕ → List (List ℚ)

/-- Running `tile` on the array at `src`, storing the result at the fresh
identity `dst`. -/
def tileOp (h : Store) (src dst : ℕ) (thin : ℕ) (renorm : Bool) : Store :=
  fun k => if k = dst then tile (h src) thin renorm else h k

/-- Mutating one cell of the array at identity `id0` in the store. -/
def storeSet (h : Store) (id0 : ℕ) (i j : ℕ) (v : ℚ) : Store :=
  fun k => if k = id0 then setCell (h k) i j v else h k

theorem length_repRows (thin : ℕ) (arr : List (List ℚ)) :
    (repRows thin arr).length = thin * arr.length := by
  induction arr with
  | nil => simp [repRows]
  | cons r rs ih =>
    simp only [repRows, List.length_append, List.length_replicate,
      List.length_cons, ih]
    ring

theorem getD_repRows (thin : ℕ) (arr : List (List ℚ)) {i j : ℕ}
    (hi : i < arr.length) (hj : j < thin) :
    (repRows thin arr).getD (i * thin + j) [] = arr.getD i [] := by
  induction arr generalizing i with
  | nil => simp at hi
  | cons r rs ih =>
    cases i with
    | zero =>
      simp only [Nat.zero_mul, Nat.zero_add, repRows, List.getD_cons_zero]
      rw [List.getD_append _ _ _ _ (by simpa using hj),
        List.getD_eq_getElem _ _ (by simpa using hj)]
      simp
    | succ k =>
      have harith : (k + 1) * thin + j = thin + (k * thin + j) := by ring
      simp only [repRows, harith, List.getD_cons_succ]
      rw [List.getD_append_right _ _ _ _ (by simp)]
      simp only [List.length_replicate, Nat.add_sub_cancel_left]
      exact ih (Nat.lt_of_succ_lt_succ hi)

theorem getD_map_rows (f : List ℚ → List ℚ) {m : List (List ℚ)} {i : ℕ}
    (hi : i < m.length) : (m.map f).getD i [] = f (m.getD i []) := by
  induction m generalizing i with
  | nil => simp at hi
  | cons x xs ih =>
    cases i with
    | zero => simp
    | succ k =>
      simp only [List.map_cons, List.getD_cons_succ]
      exact ih (Nat.lt_of_succ_lt_succ hi)

/-- C6: `tile` replicates rows contiguously: for `thin ≥ 2` the result has
`thin * N` rows, rows `i*thin` through `i*thin + thin - 1` all equal row `i`
of the input (divided by `thin` when `renorm` is set); for `thin` of 0 or 1
the result equals the input; and the result lives at a fresh array identity,
so mutating any cell of it leaves the input array unchanged. -/
theorem tile_spec (arr : List (List ℚ)) (thin : ℕ) (renorm : Bool)
    (h2 : 2 ≤ thin) :
    (tile arr thin renorm).length = thin * arr.length ∧
      (∀ i j : ℕ, i < arr.length → j < thin →
        (tile arr thin renorm).getD (i * thin + j) [] =
          if renorm then (arr.getD i []).map (fun x => x / (thin : ℚ))
          else arr.getD i []) ∧
      (tile arr 0 renorm = arr ∧ tile arr 1 renorm = arr) ∧
      (∀ (h : Store) (src dst i j : ℕ) (v : ℚ), dst ≠ src →
        storeSet (tileOp h src dst thin renorm) dst i j v src = h src) := by
  have hne : ¬ (thin = 0 ∨ thin = 1) := by omega
  refine ⟨?_, ?_, ⟨by simp [tile], by simp [tile]⟩, ?_⟩
  · cases renorm <;>
      simp [tile, hne, length_repRows]
  · intro i j hi hj
    have hidx : i * thin + j < (repRows thin arr).length := by
      rw [length_repRows]
      calc i * thin + j < i * thin + thin := by omega
        _ = (i + 1) * thin := by ring
        _ ≤ arr.length * thin := Nat.mul_le_mul_right thin (by omega)
        _ = thin * arr.length := Nat.mul_comm _ _
    cases renorm with
    | false =>
      simp only [tile, hne, if_false, Bool.false_eq_true]
      exact getD_repRows thin arr hi hj
    | true =>
      simp only [tile, hne, if_false, if_true]
      rw [getD_map_rows _ hidx, getD_repRows thin arr hi hj]
  · intro h src dst i j v hfresh
    have hsd : src ≠ dst := hfresh.symm
    simp [storeSet, tileOp, hsd]

/-- Witness for C6 on a concrete array with `thin = 2`. -/
theorem tile_spec_witness :
    (tile [[4, 6], [8, 10]] 2 true).length = 2 * 2 ∧
      (tile [[4, 6], [8, 10]] 2 true).getD (1 * 2 + 1) [] = [4, 5] ∧
      tile [[4, 6], [8, 10]] 0 true = [[4, 6], [8, 10]] := by
  obtain ⟨hlen, hrow, ⟨hz, _⟩, _⟩ :=
    tile_spec [[(4:ℚ), 6], [8, 10]] 2 true (by norm_num)
  refine ⟨by simpa using hlen, ?_, hz⟩
  rw [hrow 1 1 (by norm_num) (by norm_num)]
  norm_num

/-- Differences of adjacent entries, `np.diff`. -/
def diffAdj : List ℚ → List ℚ
  | [] => []
  | [_] => []
  | x :: y :: xs => (y - x) :: diffAdj (y :: xs)

/-- Timestep durations of the deterministic evolver:
`dt = np.abs(np.diff(t)) * 1e6` (the grid `t` is in Myr, `dt` in yr). -/
def dt_yr (t : List ℚ) : List ℚ := (diffAdj t).map (fun x => |x| * 1000000)

/-- Running cumulative sum starting from `acc`. -/
def cumsumFrom (acc : ℚ) : List ℚ → List ℚ
  | [] => []
  | x :: xs => (acc + x) :: cumsumFrom (acc + x) xs

/-- `np.cumsum` over a 1-D array. -/
def cumsum (l : List ℚ) : List ℚ := cumsumFrom 0 l

/-- Stellar-mass row of `_gen_galaxy_histories`:
`Ms = np.hstack((zeros, np.cumsum(SFR[:,0:-1] * dt * fml, axis=1)))`,
for one trajectory, with `fml = 1 - pop_mass_yield`. -/
def Ms_from_SFR (sfr t : List ℚ) (fml : ℚ) : List ℚ :=
  0 :: cumsum (List.zipWith (fun s d => s * d * fml) sfr.dropLast (dt_yr t))

theorem length_diffAdj (l : List ℚ) : (diffAdj l).length = l.length - 1 := by
  induction l with
  | nil => simp [diffAdj]
  | cons x xs ih =>
    cases xs with
    | nil => simp [diffAdj]
    | cons y ys => simpa [diffAdj] using ih

theorem cumsumFrom_getD (l : List ℚ) (a : ℚ) (k : ℕ) (hk : k < l.length) :
    (cumsumFrom a l).getD k 0 = a + (l.take (k + 1)).sum := by
  induction l generalizing a k with
  | nil => simp at hk
  | cons x xs ih =>
    cases k with
    | zero => simp [cumsumFrom]
    | succ m =>
      simp only [cumsumFrom, List.getD_cons_succ, List.take_succ_cons,
        List.sum_cons]
      rw [ih (a + x) m (Nat.lt_of_succ_lt_succ hk)]
      ring

theorem sum_take_eq_range (l : List ℚ) (k : ℕ) (hk : k ≤ l.length) :
    (l.take k).sum = ∑ j ∈ Finset.range k, l.getD j 0 := by
  induction k with
  | zero => simp
  | succ m ih =>
    have hm : m < l.length := hk
    rw [List.sum_take_succ l m hm, Finset.sum_range_succ,
      ih (Nat.le_of_lt hm), List.getD_eq_getElem l 0 hm]

theorem getD_zipWith (f : ℚ → ℚ → ℚ) (as bs : List ℚ) (j : ℕ)
    (ha : j < as.length) (hb : j < bs.length) :
    (List.zipWith f as bs).getD j 0 = f (as.getD j 0) (bs.getD j 0) := by
  induction as generalizing bs j with
  | nil => simp at ha
  | cons x xs ih =>
    cases bs with
    | nil => simp at hb
    | cons y ys =>
      cases j with
      | zero => simp
      | succ m =>
        simp only [List.zipWith_cons_cons, List.getD_cons_succ]
        exact ih ys m (Nat.lt_of_succ_lt_succ ha) (Nat.lt_of_succ_lt_succ hb)

theorem getD_dropLast (l : List ℚ) (j : ℕ) (hj : j < l.length - 1) :
    l.dropLast.getD j 0 = l.getD j 0 := by
  have hj1 : j < l.dropLast.length := by simpa using hj
  have hj2 : j < l.length := by omega
  rw [List.getD_eq_getElem _ 0 hj1, List.getD_eq_getElem _ 0 hj2,
    List.getElem_dropLast]

theorem Ms_from_SFR_partial_sums (sfr t : List ℚ) (fmr : ℚ)
    (hlen : sfr.length = t.length) :
    (Ms_from_SFR sfr t (1 - fmr)).getD 0 0 = 0 ∧
      ∀ k : ℕ, 1 ≤ k → k < t.length →
        (Ms_from_SFR sfr t (1 - fmr)).getD k 0 =
          ∑ j ∈ Finset.range k,
            sfr.getD j 0 * (dt_yr t).getD j 0 * (1 - fmr) := by
  constructor
  · rfl
  · intro k hk1 hkn
    obtain ⟨m, rfl⟩ : ∃ m, k = m + 1 := ⟨k - 1, by omega⟩
    have hdt : (dt_yr t).length = t.length - 1 := by
      simp [dt_yr, length_diffAdj]
    have hzlen : (List.zipWith (fun s d => s * d * (1 - fmr))
        sfr.dropLast (dt_yr t)).length = t.length - 1 := by
      simp [List.length_zipWith, hdt, hlen]
    have hm : m < (List.zipWith (fun s d => s * d * (1 - fmr))
        sfr.dropLast (dt_yr t)).length := by omega
    simp only [Ms_from_SFR, List.getD_cons_succ, cumsum]
    rw [cumsumFrom_getD _ 0 m hm, zero_add,
      sum_take_eq_range _ (m + 1) (by omega)]
    refine Finset.sum_congr rfl ?_
    intro j hj
    have hjm : j < m + 1 := Finset.mem_range.mp hj
    rw [getD_zipWith _ _ _ j (by simp [hlen]; omega) (by omega : j < (dt_yr t).length)]
    rw [getD_dropLast sfr j (by omega)]

/-- C7: in the deterministic batch evolver the stellar-mass series is zero at
the first time index and at any later index `k` equals the forward cumulative
sum over `j < k` of `SFR[j] * dt[j] * (1 - mass_return_fraction)`. -/
theorem Ms_cumsum_spec (sfr t : List ℚ) (fmr : ℚ)
    (hlen : sfr.length = t.length) :
    (Ms_from_SFR sfr t (1 - fmr)).getD 0 0 = 0 ∧
      ∀ k : ℕ, 1 ≤ k → k < t.length →
        (Ms_from_SFR sfr t (1 - fmr)).getD k 0 =
          ∑ j ∈ Finset.range k,
            sfr.getD j 0 * (dt_yr t).getD j 0 * (1 - fmr) :=
  Ms_from_SFR_partial_sums sfr t fmr hlen

/-- Witness for C7 on a concrete trajectory. -/
theorem Ms_cumsum_spec_witness :
    (Ms_from_SFR [3, 5, 7] [0, 2, 3] (1 - (1:ℚ)/2)).getD 0 0 = 0 ∧
      (Ms_from_SFR [3, 5, 7] [0, 2, 3] (1 - (1:ℚ)/2)).getD 2 0 =
        ∑ j ∈ Finset.range 2,
          ([3, 5, 7] : List ℚ).getD j 0 *
            (dt_yr [0, 2, 3]).getD j 0 * (1 - (1:ℚ)/2) := by
  obtain ⟨h0, hk⟩ := Ms_cumsum_spec [3, 5, 7] [0, 2, 3] ((1:ℚ)/2) (by decide)
  exact ⟨h0, hk 2 (by norm_num) (by decide)⟩

/-- Floor value used to pad the derived accretion-rate array
(`tiny_MAR = 1e-30` at the top of `GalaxyEnsemble.py`). -/
def tiny_MAR : ℚ := 1 / 10 ^ 30

/-- MAR derivation of `_gen_halo_histories` for one trajectory, with grids in
ascending redshift and `t_yr` the time grid already converted to years
(`t = cosm.t_of_z(zall) * 1e6 / s_per_myr`):
`dM = -np.diff(Mh)`, `dt = -np.diff(t)`, `MAR_z = dM / dt`, and
`mar_raw = np.hstack((ones * tiny_MAR, MAR_z))` pads the floor value at
index 0, the lowest-redshift (latest-time) snapshot. -/
def mar_from_Mh (Mh t_yr : List ℚ) : List ℚ :=
  tiny_MAR ::
    List.zipWith (fun a b => a / b)
      ((diffAdj Mh).map (fun x => -x)) ((diffAdj t_yr).map (fun x => -x))

theorem getD_diffAdj (l : List ℚ) (j : ℕ) (hj : j < l.length - 1) :
    (diffAdj l).getD j 0 = l.getD (j + 1) 0 - l.getD j 0 := by
  induction l generalizing j with
  | nil => simp at hj
  | cons x xs ih =>
    cases xs with
    | nil => simp at hj
    | cons y ys =>
      cases j with
      | zero => simp [diffAdj]
      | succ m =>
        simp only [diffAdj, List.getD_cons_succ]
        exact ih m (by simpa using hj)

/-- C5 counterexample: on the trajectory `Mh = [8, 4]`, `t_yr = [2, 1]`
(ascending redshift, so index 1 is the highest-redshift slot), the derived
array is `[1e-30, 4]`: the floor value sits at the lowest-redshift slot 0,
not at the highest-redshift slot, and the non-padded slot holds
`diff(Mh)/diff(t) = 4`, not `-diff(Mh)/diff(t) = -4`. -/
theorem mar_from_Mh_counterexample :
    ¬ ((mar_from_Mh [8, 4] [2, 1]).getD 1 0 = tiny_MAR ∧
      (mar_from_Mh [8, 4] [2, 1]).getD 0 0 =
        -(((4:ℚ) - 8) / ((1:ℚ) - 2))) := by
  intro hcon
  have h1 : (mar_from_Mh [8, 4] [2, 1]).getD 1 0 = 4 := by
    simp only [mar_from_Mh, diffAdj, List.map_cons, List.map_nil,
      List.zipWith_cons_cons, List.zipWith_nil_right, List.getD_cons_succ,
      List.getD_cons_zero]
    norm_num
  rw [h1] at hcon
  have h2 : tiny_MAR < 4 := by norm_num [tiny_MAR]
  exact absurd hcon.1 (by intro h; rw [h] at h2; exact lt_irrefl _ h2)

/-- C5 amended: for equal-length grids the derived MAR array has the same
width as `Mh` (pad-then-diff), its slot 0 — the lowest-redshift slot — equals
the floor `1e-30` (and the floor is nonzero), and every later slot `j` equals
the backward difference `(Mh[j-1] - Mh[j]) / (t[j-1] - t[j])`
(equivalently `diff(Mh)/diff(t)` of the ascending-redshift grids). -/
theorem mar_from_Mh_spec (Mh t_yr : List ℚ)
    (hlen : Mh.length = t_yr.length) (hpos : 1 ≤ Mh.length) :
    (mar_from_Mh Mh t_yr).length = Mh.length ∧
      (mar_from_Mh Mh t_yr).getD 0 0 = tiny_MAR ∧ tiny_MAR ≠ 0 ∧
      ∀ j : ℕ, 1 ≤ j → j < Mh.length →
        (mar_from_Mh Mh t_yr).getD j 0 =
          (Mh.getD (j - 1) 0 - Mh.getD j 0) /
            (t_yr.getD (j - 1) 0 - t_yr.getD j 0) := by
  refine ⟨?_, rfl, by norm_num [tiny_MAR], ?_⟩
  · simp only [mar_from_Mh, List.length_cons, List.length_zipWith,
      List.length_map, length_diffAdj, hlen]
    omega
  · intro j hj1 hjn
    obtain ⟨m, rfl⟩ : ∃ m, j = m + 1 := ⟨j - 1, by omega⟩
    simp only [mar_from_Mh, List.getD_cons_succ, Nat.add_sub_cancel]
    rw [getD_zipWith _ _ _ m (by simp [length_diffAdj]; omega)
      (by simp [length_diffAdj, ← hlen]; omega)]
    rw [getD_map_abs _ (by simp [length_diffAdj]; omega),
      getD_map_abs _ (by simp [length_diffAdj, ← hlen]; omega)]
    rw [getD_diffAdj Mh m (by omega), getD_diffAdj t_yr m (by omega)]
    ring_nf

/-- Witness for C5's amended statement on a concrete trajectory. -/
theorem mar_from_Mh_spec_witness :
    ([8, 4] : List ℚ).length = ([2, 1] : List ℚ).length ∧
      (mar_from_Mh [8, 4] [2, 1]).getD 1 0 =
        (([8, 4] : List ℚ).getD 0 0 - ([8, 4] : List ℚ).getD 1 0) /
          (([2, 1] : List ℚ).getD 0 0 - ([2, 1] : List ℚ).getD 1 0) := by
  obtain ⟨-, -, -, hslot⟩ :=
    mar_from_Mh_spec [8, 4] [2, 1] (by decide) (by norm_num)
  exact ⟨by decide, hslot 1 (by norm_num) (by norm_num)⟩

/-- In-place increment of one slot of a per-trajectory accumulator array
(`self._arr_SN[idx] += n`). -/
def addAt (l : List ℚ) (i : ℕ) (v : ℚ) : List ℚ := l.set i (l.getD i 0 + v)

theorem length_addAt (l : List ℚ) (i : ℕ) (v : ℚ) :
    (addAt l i v).length = l.length := by
  simp [addAt]

theorem getD_addAt_eq (l : List ℚ) {i : ℕ} (v : ℚ) (hi : i < l.length) :
    (addAt l i v).getD i 0 = l.getD i 0 + v := by
  induction l generalizing i with
  | nil => simp at hi
  | cons x xs ih =>
    cases i with
    | zero => simp [addAt]
    | succ m =>
      simp only [addAt, List.getD_cons_succ, List.set_cons_succ]
      exact ih (Nat.lt_of_succ_lt_succ hi)

theorem getD_addAt_ne (l : List ℚ) {i j : ℕ} (v : ℚ) (hij : j ≠ i) :
    (addAt l i v).getD j 0 = l.getD j 0 := by
  induction l generalizing i j with
  | nil => simp [addAt]
  | cons x xs ih =>
    cases i with
    | zero =>
      cases j with
      | zero => exact absurd rfl hij
      | succ m => simp [addAt]
    | succ m =>
      cases j with
      | zero => simp [addAt]
      | succ p =>
        simp only [addAt, List.getD_cons_succ, List.set_cons_succ]
        exact ih (fun h => hij (by omega))

theorem sum_addAt (l : List ℚ) {i : ℕ} (v : ℚ) (hi : i < l.length) :
    (addAt l i v).sum = l.sum + v := by
  induction l generalizing i with
  | nil => simp at hi
  | cons x xs ih =>
    cases i with
    | zero => simp [addAt]; ring
    | succ m =>
      simp only [addAt, List.getD_cons_succ, List.set_cons_succ,
        List.sum_cons]
      have := ih (i := m) (Nat.lt_of_succ_lt_succ hi)
      simp only [addAt] at this
      rw [this]
      ring

theorem getD_lt_of_chain {t : List ℚ} (hchain : List.Chain' (· < ·) t)
    {i j : ℕ} (hij : i < j) (hj : j < t.length) :
    t.getD i 0 < t.getD j 0 := by
  have hpw := List.chain'_iff_pairwise.mp hchain
  have hi : i < t.length := lt_trans hij hj
  rw [List.getD_eq_getElem t 0 hi, List.getD_eq_getElem t 0 hj]
  exact List.pairwise_iff_getElem.mp hpw i j hi hj hij

/-- Supernova-delay mode 1 of `_gen_stars` (`pop_delay_sne_feedback == 1`,
sampled IMF disabled), acting on one cluster with massive-star count `NMS`:
if the timestep `dt = t[idnum+1] - t[idnum]` exceeds the population-average
delay, count the stars now (`N_SN_0 += N_MS`); otherwise add the full count
to the future-accumulator slot `idnum + argmin |(tfut - tnow) - avg_delay|`. -/
def sn_delay_mode1 (t : List ℚ) (idnum : ℕ) (avgDelay NMS NSN0 : ℚ)
    (arrSN : List ℚ) : ℚ × List ℚ :=
  if avgDelay < t.getD (idnum + 1) 0 - t.getD idnum 0 then (NSN0 + NMS, arrSN)
  else
    let tnow := t.getD idnum 0
    let iSNe := argmin ((t.drop idnum).map (fun x => |(x - tnow) - avgDelay|))
    (NSN0, addAt arrSN (idnum + iSNe) NMS)

/-- C1: in delay mode 1, with a strictly ascending time grid, a nonnegative
average delay `D` and `arrSN` as long as the grid: when `dt > D` the count is
taken at the current step and the accumulator is untouched; when `dt ≤ D` the
immediate count is unchanged and the full count is added to exactly one slot
`k`, a slot ≥ the current index whose time is nearest `t[idnum] + D` among
all grid slots; and in both cases the accumulator total plus the immediate
count grows by exactly `NMS`. -/
theorem sn_delay_mode1_spec (t arrSN : List ℚ) (idnum : ℕ)
    (avgDelay NMS NSN0 : ℚ)
    (hchain : List.Chain' (· < ·) t) (hid : idnum + 1 < t.length)
    (hD : 0 ≤ avgDelay) (hlen : arrSN.length = t.length) :
    (avgDelay < t.getD (idnum + 1) 0 - t.getD idnum 0 →
      sn_delay_mode1 t idnum avgDelay NMS NSN0 arrSN = (NSN0 + NMS, arrSN)) ∧
    (t.getD (idnum + 1) 0 - t.getD idnum 0 ≤ avgDelay →
      ∃ k : ℕ, idnum ≤ k ∧ k < t.length ∧
        (sn_delay_mode1 t idnum avgDelay NMS NSN0 arrSN).1 = NSN0 ∧
        (sn_delay_mode1 t idnum avgDelay NMS NSN0 arrSN).2.getD k 0 =
          arrSN.getD k 0 + NMS ∧
        (∀ j : ℕ, j ≠ k →
          (sn_delay_mode1 t idnum avgDelay NMS NSN0 arrSN).2.getD j 0 =
            arrSN.getD j 0) ∧
        (∀ j : ℕ, j < t.length →
          |t.getD k 0 - (t.getD idnum 0 + avgDelay)| ≤
            |t.getD j 0 - (t.getD idnum 0 + avgDelay)|)) ∧
    (sn_delay_mode1 t idnum avgDelay NMS NSN0 arrSN).2.sum +
        (sn_delay_mode1 t idnum avgDelay NMS NSN0 arrSN).1 =
      arrSN.sum + NSN0 + NMS := by
  have hidlt : idnum < t.length := by omega
  have hdropne : t.drop idnum ≠ [] := by
    intro hcon
    have := List.drop_eq_nil_iff.mp hcon
    omega
  have hmapne : (t.drop idnum).map (fun x => |(x - t.getD idnum 0) - avgDelay|) ≠ [] := by
    simpa using hdropne
  have hargl := argmin_lt_length hmapne
  have hmaplen : ((t.drop idnum).map
      (fun x => |(x - t.getD idnum 0) - avgDelay|)).length = t.length - idnum := by
    simp
  have hk : idnum + argmin ((t.drop idnum).map
      (fun x => |(x - t.getD idnum 0) - avgDelay|)) < t.length := by
    rw [hmaplen] at hargl
    omega
  -- value of the mapped list at any future offset
  have hMval : ∀ i : ℕ, i < t.length - idnum →
      ((t.drop idnum).map (fun x => |(x - t.getD idnum 0) - avgDelay|)).getD i 0 =
        |t.getD (idnum + i) 0 - (t.getD idnum 0 + avgDelay)| := by
    intro i hilen
    rw [getD_map_abs _ (by simp; omega), getD_drop]
    ring_nf
  have hargl2 : argmin ((t.drop idnum).map
      (fun x => |(x - t.getD idnum 0) - avgDelay|)) < t.length - idnum := by
    rw [hmaplen] at hargl
    exact hargl
  constructor
  · intro hlt
    unfold sn_delay_mode1
    rw [if_pos hlt]
  constructor
  · intro hle
    have hnlt : ¬ avgDelay < t.getD (idnum + 1) 0 - t.getD idnum 0 :=
      not_lt.mpr hle
    have hresult : sn_delay_mode1 t idnum avgDelay NMS NSN0 arrSN =
        (NSN0, addAt arrSN (idnum + argmin ((t.drop idnum).map
          (fun x => |(x - t.getD idnum 0) - avgDelay|))) NMS) := by
      unfold sn_delay_mode1
      rw [if_neg hnlt]
    refine ⟨idnum + argmin ((t.drop idnum).map
      (fun x => |(x - t.getD idnum 0) - avgDelay|)), Nat.le_add_right _ _, hk,
      ?_, ?_, ?_, ?_⟩
    · rw [hresult]
    · rw [hresult]
      exact getD_addAt_eq arrSN NMS (by omega)
    · intro j hj
      rw [hresult]
      exact getD_addAt_ne arrSN NMS hj
    · intro j hj
      rcases le_or_lt idnum j with hjfut | hjpast
      · -- future slot: direct argmin property
        have hoff : j - idnum < ((t.drop idnum).map
            (fun x => |(x - t.getD idnum 0) - avgDelay|)).length := by
          rw [hmaplen]; omega
        have hmin := getD_argmin_le hmapne hoff
        rw [hMval _ hargl2, hMval _ (by omega)] at hmin
        have hjeq : idnum + (j - idnum) = j := by omega
        rwa [hjeq] at hmin
      · -- past slot: its distance exceeds D, the future minimum is ≤ D
        have hmin_le_D : |t.getD (idnum + argmin ((t.drop idnum).map
            (fun x => |(x - t.getD idnum 0) - avgDelay|))) 0 -
              (t.getD idnum 0 + avgDelay)| ≤ avgDelay := by
          have h0 := getD_argmin_le hmapne (j := 0) (by rw [hmaplen]; omega)
          rw [hMval _ hargl2, hMval 0 (by omega)] at h0
          have hzero : t.getD (idnum + 0) 0 - (t.getD idnum 0 + avgDelay) =
              -avgDelay := by
            simp
          rw [hzero, abs_neg, abs_of_nonneg hD] at h0
          exact h0
        have hpast : t.getD j 0 < t.getD idnum 0 :=
          getD_lt_of_chain hchain hjpast hidlt
        have hdist : avgDelay ≤ |t.getD j 0 - (t.getD idnum 0 + avgDelay)| := by
          calc avgDelay ≤ (t.getD idnum 0 + avgDelay) - t.getD j 0 := by linarith
            _ = |t.getD j 0 - (t.getD idnum 0 + avgDelay)| := by
              rw [abs_sub_comm, abs_of_nonneg (by linarith)]
        exact le_trans hmin_le_D hdist
  · by_cases hlt : avgDelay < t.getD (idnum + 1) 0 - t.getD idnum 0
    · have himm : sn_delay_mode1 t idnum avgDelay NMS NSN0 arrSN =
          (NSN0 + NMS, arrSN) := by
        unfold sn_delay_mode1
        rw [if_pos hlt]
      rw [himm]
      ring
    · have hresult : sn_delay_mode1 t idnum avgDelay NMS NSN0 arrSN =
          (NSN0, addAt arrSN (idnum + argmin ((t.drop idnum).map
            (fun x => |(x - t.getD idnum 0) - avgDelay|))) NMS) := by
        unfold sn_delay_mode1
        rw [if_neg hlt]
      rw [hresult]
      simp only
      rw [sum_addAt arrSN NMS (by omega)]
      ring

/-- Witness for C1 on a concrete grid: `t = [0, 4, 14]`, current index 0,
average delay 10 ≥ dt = 4, so the count lands in slot 2. -/
theorem sn_delay_mode1_spec_witness :
    (([0, 4, 14] : List ℚ).getD 1 0 - ([0, 4, 14] : List ℚ).getD 0 0 ≤ 10) ∧
      (sn_delay_mode1 [0, 4, 14] 0 10 3 0 [0, 0, 0]).2.sum +
          (sn_delay_mode1 [0, 4, 14] 0 10 3 0 [0, 0, 0]).1 =
        ([0, 0, 0] : List ℚ).sum + 0 + 3 := by
  have h := sn_delay_mode1_spec [0, 4, 14] [0, 0, 0] 0 10 3 0
    (by norm_num [List.chain'_cons]) (by norm_num) (by norm_num) (by norm_num)
  exact ⟨by norm_num, h.2.2⟩

/-- The mode-2 deposit loop of `_gen_stars`
(`for _iSNe in iSNe: self._arr_SN[idnum+_iSNe] += 1`). -/
def depositAll (arrSN : List ℚ) (idnum : ℕ) (iList : List ℕ) : List ℚ :=
  iList.foldl (fun a i => addAt a (idnum + i) 1) arrSN

/-- Supernova-delay mode 2 of `_gen_stars` (`pop_delay_sne_feedback == 2`):
one delay per massive star, each supernova routed to the future index closest
to `current_time + delay` (`iSNe = argmin |(tfut - tnow) - delay|`), each
deposited one by one into the accumulator, and afterwards the immediate
count is also incremented by the number of delays resolving to the current
step (`N_SN_0 += sum(iSNe == 0)`). -/
def sn_delay_mode2 (t : List ℚ) (idnum : ℕ) (delays : List ℚ) (NSN0 : ℚ)
    (arrSN : List ℚ) : ℚ × List ℚ :=
  let tnow := t.getD idnum 0
  let iSNe := delays.map
    (fun d => argmin ((t.drop idnum).map (fun x => |(x - tnow) - d|)))
  (NSN0 + (iSNe.count 0 : ℚ), depositAll arrSN idnum iSNe)

theorem length_depositAll (arrSN : List ℚ) (idnum : ℕ) (iList : List ℕ) :
    (depositAll arrSN idnum iList).length = arrSN.length := by
  induction iList generalizing arrSN with
  | nil => rfl
  | cons i is ih =>
    simp only [depositAll, List.foldl_cons]
    rw [show (List.foldl (fun a i => addAt a (idnum + i) 1)
      (addAt arrSN (idnum + i) 1) is) =
        depositAll (addAt arrSN (idnum + i) 1) idnum is from rfl]
    rw [ih, length_addAt]

theorem sum_depositAll (arrSN : List ℚ) (idnum : ℕ) (iList : List ℕ)
    (hin : ∀ e ∈ iList, idnum + e < arrSN.length) :
    (depositAll arrSN idnum iList).sum = arrSN.sum + iList.length := by
  induction iList generalizing arrSN with
  | nil => simp [depositAll]
  | cons i is ih =>
    simp only [depositAll, List.foldl_cons]
    rw [show (List.foldl (fun a i => addAt a (idnum + i) 1)
      (addAt arrSN (idnum + i) 1) is) =
        depositAll (addAt arrSN (idnum + i) 1) idnum is from rfl]
    rw [ih (addAt arrSN (idnum + i) 1) (by
      intro e he
      rw [length_addAt]
      exact hin e (List.mem_cons_of_mem i he))]
    rw [sum_addAt arrSN 1 (hin i (List.mem_cons_self i is))]
    simp only [List.length_cons]
    push_cast
    ring

theorem argmin_future_lt (t : List ℚ) (idnum : ℕ) (d : ℚ)
    (hid : idnum < t.length) :
    argmin ((t.drop idnum).map (fun x => |(x - t.getD idnum 0) - d|)) <
      t.length - idnum := by
  have hdropne : t.drop idnum ≠ [] := by
    intro hcon
    have := List.drop_eq_nil_iff.mp hcon
    omega
  have := argmin_lt_length
    (l := (t.drop idnum).map (fun x => |(x - t.getD idnum 0) - d|))
    (by simpa using hdropne)
  simpa using this

theorem argmin_future_nearest (t : List ℚ) (idnum : ℕ) (d : ℚ)
    (hid : idnum < t.length) :
    ∀ j : ℕ, idnum ≤ j → j < t.length →
      |t.getD (idnum + argmin ((t.drop idnum).map
          (fun x => |(x - t.getD idnum 0) - d|))) 0 -
        (t.getD idnum 0 + d)| ≤ |t.getD j 0 - (t.getD idnum 0 + d)| := by
  intro j hjlo hjhi
  have hdropne : t.drop idnum ≠ [] := by
    intro hcon
    have := List.drop_eq_nil_iff.mp hcon
    omega
  have hmapne : (t.drop idnum).map (fun x => |(x - t.getD idnum 0) - d|) ≠ [] := by
    simpa using hdropne
  have hmaplen : ((t.drop idnum).map
      (fun x => |(x - t.getD idnum 0) - d|)).length = t.length - idnum := by
    simp
  have hMval : ∀ i : ℕ, i < t.length - idnum →
      ((t.drop idnum).map (fun x => |(x - t.getD idnum 0) - d|)).getD i 0 =
        |t.getD (idnum + i) 0 - (t.getD idnum 0 + d)| := by
    intro i hilen
    rw [getD_map_abs _ (by simp; omega), getD_drop]
    ring_nf
  have hoff : j - idnum < ((t.drop idnum).map
      (fun x => |(x - t.getD idnum 0) - d|)).length := by
    rw [hmaplen]; omega
  have hmin := getD_argmin_le hmapne hoff
  rw [hMval _ (argmin_future_lt t idnum d hid), hMval _ (by omega)] at hmin
  have hjeq : idnum + (j - idnum) = j := by omega
  rwa [hjeq] at hmin

/-- C2 counterexample: grid `t = [0, 10]`, current index 0, one massive star
whose delay 0 resolves to the current step.  The code both deposits it into
the accumulator slot 0 (`[0,0] ↦ [1,0]`) and adds it to the immediate count,
so the immediate count plus the accumulator increments is 2, not the 1 star
drawn, and the accumulator does not stay untouched as the claim requires. -/
theorem sn_delay_mode2_counterexample :
    ¬ ((sn_delay_mode2 [0, 10] 0 [0] 0 [0, 0]).2 = [0, 0] ∧
      ((sn_delay_mode2 [0, 10] 0 [0] 0 [0, 0]).1 - 0) +
        ((sn_delay_mode2 [0, 10] 0 [0] 0 [0, 0]).2.sum -
          ([0, 0] : List ℚ).sum) = 1) := by
  have hval : sn_delay_mode2 [0, 10] 0 [0] 0 [0, 0] = (1, [1, 0]) := by
    have harg : argmin ((([0, 10] : List ℚ).drop 0).map
        (fun x => |(x - ([0, 10] : List ℚ).getD 0 0) - 0|)) = 0 := by
      norm_num [argmin, listMin]
    simp only [sn_delay_mode2, List.map_cons, List.map_nil, harg]
    norm_num [depositAll, addAt, List.count_cons]
  rw [hval]
  intro hcon
  exact absurd hcon.1 (by simp)

/-- C2 amended: in delay mode 2, every drawn supernova — including those
whose delay resolves to the current step — is deposited into the trajectory
accumulator at the future index closest to `current_time + delay`, so the
accumulator total grows by exactly the number of massive stars; the immediate
count additionally grows by the number of delays resolving to the current
step (those supernovae are therefore counted twice across the two books). -/
theorem sn_delay_mode2_spec (t arrSN : List ℚ) (delays : List ℚ)
    (idnum : ℕ) (NSN0 : ℚ)
    (hid : idnum < t.length) (hlen : arrSN.length = t.length) :
    (sn_delay_mode2 t idnum delays NSN0 arrSN).1 =
        NSN0 + ((delays.map (fun d => argmin ((t.drop idnum).map
          (fun x => |(x - t.getD idnum 0) - d|)))).count 0 : ℚ) ∧
      (sn_delay_mode2 t idnum delays NSN0 arrSN).2.sum =
        arrSN.sum + delays.length ∧
      ∀ d ∈ delays, ∀ j : ℕ, idnum ≤ j → j < t.length →
        |t.getD (idnum + argmin ((t.drop idnum).map
            (fun x => |(x - t.getD idnum 0) - d|))) 0 -
          (t.getD idnum 0 + d)| ≤ |t.getD j 0 - (t.getD idnum 0 + d)| := by
  refine ⟨rfl, ?_, ?_⟩
  · have hsum := sum_depositAll arrSN idnum
      (delays.map (fun d => argmin ((t.drop idnum).map
        (fun x => |(x - t.getD idnum 0) - d|))))
      (by
        intro e he
        obtain ⟨d, -, rfl⟩ := List.mem_map.mp he
        have := argmin_future_lt t idnum d hid
        omega)
    rw [show (sn_delay_mode2 t idnum delays NSN0 arrSN).2 =
      depositAll arrSN idnum (delays.map (fun d => argmin ((t.drop idnum).map
        (fun x => |(x - t.getD idnum 0) - d|)))) from rfl]
    rw [hsum]
    simp
  · intro d hd
    exact argmin_future_nearest t idnum d hid

/-- Witness for C2's amended statement on a concrete grid. -/
theorem sn_delay_mode2_spec_witness :
    (sn_delay_mode2 [0, 10] 0 [0] 0 [0, 0]).2.sum =
      ([0, 0] : List ℚ).sum + ([0] : List ℚ).length := by
  exact (sn_delay_mode2_spec [0, 10] [0, 0] [0] 0 0
    (by norm_num) (by norm_num)).2.1

/-- Modelled from the spec: the gram-per-solar-mass unit constant of the
external physics-constants collaborator (not under `src/`), used as the mass
unit dividing the wind-energy formula. -/
def g_per_msun : ℚ := 198892 * 10 ^ 28

/-- Wind mass of `_gen_stars`:
`Mw = 2 * (N_SN_0 + N_SN_p) * 1e51 * pop_coupling_sne / vesc**2 / g_per_msun`
(the argument `NSNtot` is `N_SN_0 + N_SN_p`). -/
def windMass (coupling vesc NSNtot : ℚ) : ℚ :=
  2 * NSNtot * 10 ^ 51 * coupling / vesc ^ 2 / g_per_msun

/-- The cluster-formation loop of `_gen_stars` (radiative feedback off,
instantaneous supernova feedback, Poisson massive-star counts), driven by a
finite sequence of random draws, each a proposed cluster mass `Mc` and a
massive-star count `NMS`.  State is `(Ms, Mw, N_SN_0)`.  The loop runs while
`Mw + Ms < Mg * fstar`, breaks when a proposed cluster satisfies
`Ms + Mc + Mw ≥ Mg`, otherwise forms the cluster (`Ms += Mc`), and if the
cluster has massive stars recomputes the wind from the updated supernova
count. -/
def gen_stars_loop (Mg fstar NSNp coupling vesc : ℚ) :
    List (ℚ × ℕ) → ℚ × ℚ × ℚ → ℚ × ℚ × ℚ
  | draws, (Ms, Mw, N0) =>
    if ¬ (Mw + Ms < Mg * fstar) then (Ms, Mw, N0)
    else
      match draws with
      | [] => (Ms, Mw, N0)
      | (Mc, NMS) :: rest =>
        if Mg ≤ Ms + Mc + Mw then (Ms, Mw, N0)
        else if NMS = 0 then
          gen_stars_loop Mg fstar NSNp coupling vesc rest (Ms + Mc, Mw, N0)
        else
          gen_stars_loop Mg fstar NSNp coupling vesc rest
            (Ms + Mc, windMass coupling vesc ((N0 + NMS) + NSNp), N0 + NMS)

theorem gen_stars_loop_nil (Mg fstar NSNp coupling vesc Ms Mw N0 : ℚ) :
    gen_stars_loop Mg fstar NSNp coupling vesc [] (Ms, Mw, N0) =
      (Ms, Mw, N0) := by
  unfold gen_stars_loop
  by_cases h : ¬ (Mw + Ms < Mg * fstar)
  · rw [if_pos h]
  · rw [if_neg h]

theorem gen_stars_loop_cons (Mg fstar NSNp coupling vesc Mc : ℚ) (NMS : ℕ)
    (rest : List (ℚ × ℕ)) (Ms Mw N0 : ℚ) :
    gen_stars_loop Mg fstar NSNp coupling vesc ((Mc, NMS) :: rest)
        (Ms, Mw, N0) =
      if ¬ (Mw + Ms < Mg * fstar) then (Ms, Mw, N0)
      else if Mg ≤ Ms + Mc + Mw then (Ms, Mw, N0)
      else if NMS = 0 then
        gen_stars_loop Mg fstar NSNp coupling vesc rest (Ms + Mc, Mw, N0)
      else
        gen_stars_loop Mg fstar NSNp coupling vesc rest
          (Ms + Mc, windMass coupling vesc ((N0 + NMS) + NSNp), N0 + NMS) :=
  rfl

theorem windMass_nonneg {coupling vesc NSNtot : ℚ} (hc : 0 ≤ coupling)
    (hN : 0 ≤ NSNtot) : 0 ≤ windMass coupling vesc NSNtot := by
  have hg : (0:ℚ) < g_per_msun := by norm_num [g_per_msun]
  have hv : (0:ℚ) ≤ vesc ^ 2 := sq_nonneg vesc
  unfold windMass
  positivity

theorem gen_stars_loop_invariant (Mg fstar NSNp coupling vesc : ℚ)
    (hc : 0 ≤ coupling) (hp : 0 ≤ NSNp) (draws : List (ℚ × ℕ)) :
    ∀ Ms Mw N0 : ℚ, Ms < Mg → 0 ≤ Mw → 0 ≤ N0 →
      (gen_stars_loop Mg fstar NSNp coupling vesc draws (Ms, Mw, N0)).1 < Mg := by
  induction draws with
  | nil =>
    intro Ms Mw N0 hMs hMw hN0
    rw [gen_stars_loop_nil]
    exact hMs
  | cons head rest ih =>
    intro Ms Mw N0 hMs hMw hN0
    obtain ⟨Mc, NMS⟩ := head
    rw [gen_stars_loop_cons]
    by_cases hwhile : ¬ (Mw + Ms < Mg * fstar)
    · rw [if_pos hwhile]
      exact hMs
    rw [if_neg hwhile]
    by_cases hbreak : Mg ≤ Ms + Mc + Mw
    · rw [if_pos hbreak]
      exact hMs
    rw [if_neg hbreak]
    have hMs' : Ms + Mc < Mg := by
      push_neg at hbreak
      linarith
    by_cases hzero : NMS = 0
    · rw [if_pos hzero]
      exact ih (Ms + Mc) Mw N0 hMs' hMw hN0
    · rw [if_neg hzero]
      refine ih (Ms + Mc) _ (N0 + NMS) hMs' ?_ (by positivity)
      exact windMass_nonneg hc (by positivity)

/-- C3 counterexample: `Mg = 100`, `fstar_cloud = 1`, no prior supernovae,
coupling 1, escape velocity `1e7`: a single accepted cluster of mass 50 with
one massive star passes the break test (`0 + 50 + 0 < 100`) but the wind
recomputed after formation is ≈ 1.0056e4, so at loop termination formed mass
plus wind mass is ≈ 1.0106e4 > `Mg`. -/
theorem gen_stars_loop_counterexample :
    ¬ ((gen_stars_loop 100 1 0 1 (10 ^ 7) [(50, 1)] (0, 0, 0)).1 +
        (gen_stars_loop 100 1 0 1 (10 ^ 7) [(50, 1)] (0, 0, 0)).2.1 ≤ 100) := by
  have hval : gen_stars_loop 100 1 0 1 (10 ^ 7) [(50, 1)] (0, 0, 0) =
      (50, windMass 1 (10 ^ 7) 1, 1) := by
    rw [gen_stars_loop_cons]
    rw [if_neg (by norm_num)]
    rw [if_neg (by norm_num)]
    rw [if_neg (by norm_num)]
    norm_num
    rw [gen_stars_loop_nil]
  rw [hval]
  unfold windMass g_per_msun
  norm_num

/-- C3 amended: the break rule holds as stated — a proposed cluster whose
mass would push `Ms + Mc + Mw` (with the wind mass as of the proposal) to or
beyond `Mg` is rejected and the loop exits — and in consequence the
cumulative formed stellar mass at termination stays below `Mg`; the formed
mass plus the wind mass recomputed after cluster formation, however, can
exceed `Mg` (see the counterexample). -/
theorem gen_stars_loop_spec (Mg NSNp coupling vesc : ℚ)
    (draws : List (ℚ × ℕ)) (hMg : 0 < Mg) (hc : 0 ≤ coupling)
    (hp : 0 ≤ NSNp) :
    (gen_stars_loop Mg 1 NSNp coupling vesc draws (0, 0, 0)).1 < Mg ∧
      ∀ (Ms Mw N0 Mc : ℚ) (NMS : ℕ) (rest : List (ℚ × ℕ)),
        Mw + Ms < Mg * 1 → Mg ≤ Ms + Mc + Mw →
        gen_stars_loop Mg 1 NSNp coupling vesc ((Mc, NMS) :: rest)
          (Ms, Mw, N0) = (Ms, Mw, N0) := by
  constructor
  · exact gen_stars_loop_invariant Mg 1 NSNp coupling vesc hc hp draws
      0 0 0 hMg le_rfl le_rfl
  · intro Ms Mw N0 Mc NMS rest hwhile hbreak
    rw [gen_stars_loop_cons]
    rw [if_neg (by push_neg; exact hwhile)]
    rw [if_pos hbreak]

/-- Witness for C3's amended statement at the counterexample's inputs. -/
theorem gen_stars_loop_spec_witness :
    (gen_stars_loop 100 1 0 1 (10 ^ 7) [(50, 1)] (0, 0, 0)).1 < 100 :=
  (gen_stars_loop_spec 100 0 1 (10 ^ 7) [(50, 1)] (by norm_num)
    (by norm_num) (by norm_num)).1

/-- The supernova-feedback mode dispatch of `_gen_stars`, run per cluster
with massive stars: mode 0 counts immediately; mode 1 first checks
`pop_sample_imf` and raises (`raise NotImplemented('help')`) when the
sampled IMF is on, otherwise routes through the mode-1 scheduler; mode 2
routes through the delay-time-distribution scheduler with NO sampled-IMF
check; any other mode falls through the `elif` chain leaving the counts
untouched. -/
def sn_feedback_dispatch (sampleIMF : Bool) (mode : ℕ) (t : List ℚ)
    (idnum : ℕ) (avgDelay : ℚ) (delays : List ℚ) (NMS NSN0 : ℚ)
    (arrSN : List ℚ) : Except String (ℚ × List ℚ) :=
  if mode = 0 then .ok (NSN0 + NMS, arrSN)
  else if mode = 1 then
    if sampleIMF then .error "NotImplemented: help"
    else .ok (sn_delay_mode1 t idnum avgDelay NMS NSN0 arrSN)
  else if mode = 2 then .ok (sn_delay_mode2 t idnum delays NSN0 arrSN)
  else .ok (NSN0, arrSN)

/-- The radiative-feedback dispatch of `_gen_stars`: skipped when
`pop_feedback_rad` is off; with delay mode 0 the UV energy increment `dEUV`
(computed from the external stellar-population tables) is accumulated; with
delay mode ≥ 1 the code raises (`raise NotImplemented('help')`). -/
def rad_feedback_dispatch (radOn : Bool) (radMode : ℕ) (EUV0 dEUV : ℚ) :
    Except String ℚ :=
  if ¬ radOn then .ok EUV0
  else if radMode = 0 then .ok (EUV0 + dEUV)
  else .error "NotImplemented: help"

/-- C9 counterexample: sampled IMF combined with supernova delay mode 2 is
NOT rejected — the dispatch silently computes the mode-2 routing — although
the claim requires an error for every delay mode ≥ 1. -/
theorem sn_feedback_dispatch_counterexample :
    sn_feedback_dispatch true 2 [0, 10] 0 0 [0] 1 0 [0, 0] =
        Except.ok (sn_delay_mode2 [0, 10] 0 [0] 0 [0, 0]) ∧
      ∀ e : String,
        sn_feedback_dispatch true 2 [0, 10] 0 0 [0] 1 0 [0, 0] ≠
          Except.error e := by
  constructor
  · rfl
  · intro e
    simp [sn_feedback_dispatch]

/-- C9 amended: sampled IMF combined with supernova delay mode 1 raises as
soon as a cluster with massive stars is processed, and radiative feedback
with radiative delay mode ≥ 1 raises; but sampled IMF with supernova delay
mode 2 is not checked and proceeds silently (see the counterexample). -/
theorem feedback_dispatch_spec (t : List ℚ) (idnum : ℕ) (avgDelay : ℚ)
    (delays : List ℚ) (NMS NSN0 : ℚ) (arrSN : List ℚ) (radMode : ℕ)
    (EUV0 dEUV : ℚ) :
    sn_feedback_dispatch true 1 t idnum avgDelay delays NMS NSN0 arrSN =
        Except.error "NotImplemented: help" ∧
      (1 ≤ radMode →
        rad_feedback_dispatch true radMode EUV0 dEUV =
          Except.error "NotImplemented: help") := by
  constructor
  · rfl
  · intro hr
    have : radMode ≠ 0 := by omega
    simp [rad_feedback_dispatch, this]

/-- Witness for C9's amended statement at radiative delay mode 1. -/
theorem feedback_dispatch_spec_witness :
    (1 ≤ 1) ∧
      rad_feedback_dispatch true 1 0 0 =
        Except.error "NotImplemented: help" :=
  ⟨le_rfl, (feedback_dispatch_spec [] 0 0 [] 0 0 [] 1 0 0).2 le_rfl⟩

/-- Halo-mass row of the C8 scenario: one halo of constant mass `M` sampled
at two timesteps (ascending-redshift order, as loaded). -/
def scenarioMh (M : ℚ) : List ℚ := [M, M]

/-- Time grid of the C8 scenario in Myr, ascending-redshift order
(time decreases with redshift). -/
def scenario_t_myr : List ℚ := [900, 500]

/-- The same grid converted to years, as used by the MAR derivation
(`t = cosm.t_of_z(zall) * 1e6 / s_per_myr`). -/
def scenario_t_yr : List ℚ := scenario_t_myr.map (fun x => x * 1000000)

/-- Baryon fraction of the scenario (`cosm.fbar_over_fcdm = 0.16`). -/
def fbar : ℚ := 16 / 100

/-- Constant star-formation efficiency of the scenario
(`self.guide.SFE = 0.05`). -/
def sfe_const : ℚ := 5 / 100

/-- Scenario MAR: derived from `Mh` by `_gen_halo_histories` (no explicit
MAR supplied), then flipped to ascending time by `_gen_galaxy_histories`
(`MAR = halos['MAR'][:,-1::-1]`). -/
def scenarioMAR (M : ℚ) : List ℚ := (mar_from_Mh (scenarioMh M) scenario_t_yr).reverse

/-- Scenario SFR of the deterministic batch evolver:
`SFR = SFE * MAR * fb` elementwise. -/
def scenarioSFR (M : ℚ) : List ℚ := (scenarioMAR M).map (fun m => sfe_const * m * fbar)

/-- Ascending-time grid of the evolver (`t = halos['t'][-1::-1]`, Myr). -/
def scenario_t_asc : List ℚ := scenario_t_myr.reverse

/-- Scenario stellar mass: the zero-padded forward cumulative sum. -/
def scenarioMs (M fmr : ℚ) : List ℚ :=
  Ms_from_SFR (scenarioSFR M) scenario_t_asc (1 - fmr)

/-- C8: in the two-timestep scenario with constant halo masses `1e10`,
`1e11`, `1e12`, baryon fraction 0.16 and constant star-formation efficiency
0.05, the deterministic evolver yields `SFR[:,0] = 0` at the first
(ascending-time) index and `Ms[:,1] = SFR[:,0] * dt * (1 - mass_return)`
for every mass-return fraction. -/
theorem scenario_spec :
    ∀ fmr : ℚ,
      ((scenarioSFR (10 ^ 10)).getD 0 0 = 0 ∧
        (scenarioSFR (10 ^ 11)).getD 0 0 = 0 ∧
        (scenarioSFR (10 ^ 12)).getD 0 0 = 0) ∧
      ((scenarioMs (10 ^ 10) fmr).getD 1 0 =
          (scenarioSFR (10 ^ 10)).getD 0 0 *
            (dt_yr scenario_t_asc).getD 0 0 * (1 - fmr) ∧
        (scenarioMs (10 ^ 11) fmr).getD 1 0 =
          (scenarioSFR (10 ^ 11)).getD 0 0 *
            (dt_yr scenario_t_asc).getD 0 0 * (1 - fmr) ∧
        (scenarioMs (10 ^ 12) fmr).getD 1 0 =
          (scenarioSFR (10 ^ 12)).getD 0 0 *
            (dt_yr scenario_t_asc).getD 0 0 * (1 - fmr)) := by
  intro fmr
  have hsfr : ∀ M : ℚ, (scenarioSFR M).getD 0 0 = 0 := by
    intro M
    simp only [scenarioSFR, scenarioMAR, scenarioMh, scenario_t_yr,
      scenario_t_myr, mar_from_Mh, diffAdj, List.map_cons, List.map_nil,
      List.zipWith_cons_cons, List.zipWith_nil_right, List.reverse_cons,
      List.reverse_nil, List.nil_append, List.cons_append,
      List.getD_cons_zero]
    norm_num
  have hlen : ∀ M : ℚ, (scenarioSFR M).length = scenario_t_asc.length := by
    intro M
    simp [scenarioSFR, scenarioMAR, scenarioMh, scenario_t_yr,
      scenario_t_myr, scenario_t_asc, mar_from_Mh, diffAdj]
  have hms : ∀ M : ℚ, (scenarioMs M fmr).getD 1 0 =
      (scenarioSFR M).getD 0 0 * (dt_yr scenario_t_asc).getD 0 0 * (1 - fmr) := by
    intro M
    have h := (Ms_from_SFR_partial_sums (scenarioSFR M) scenario_t_asc fmr
      (hlen M)).2 1 le_rfl (by simp [scenario_t_asc, scenario_t_myr])
    rw [show scenarioMs M fmr =
      Ms_from_SFR (scenarioSFR M) scenario_t_asc (1 - fmr) from rfl, h,
      Finset.sum_range_one]
  exact ⟨⟨hsfr _, hsfr _, hsfr _⟩, hms _, hms _, hms _⟩

section LogNormalNoise

open MeasureTheory Real ProbabilityTheory

/-- `GalaxyEnsemble.noise_lognormal` for one array element:
`noise = 10**(np.log10(arr) + lognoise) - arr`, where `g` is the normal
draw (`np.random.normal(scale=sigma)`, drawn in log10 space). -/
noncomputable def noise_lognormal (arr g : ℝ) : ℝ :=
  (10 : ℝ) ^ (Real.logb 10 arr + g) - arr

/-- The scatter-injection step of `_gen_halo_histories`:
`mar += noise; mar /= np.exp(0.5 * sigma_mar**2)`, for one element. -/
noncomputable def mar_corrected (arr σ g : ℝ) : ℝ :=
  (arr + noise_lognormal arr g) / Real.exp (0.5 * σ ^ 2)

/-- Expectation of a statistic of one normal draw of scale `σ`
(density-weighted Lebesgue integral against the centred Gaussian pdf). -/
noncomputable def gaussExp (σ : ℝ) (f : ℝ → ℝ) : ℝ :=
  ∫ x : ℝ, f x * gaussianPDFReal 0 (Real.toNNReal (σ ^ 2)) x

theorem integral_exp_mul_gaussianPDFReal (σ c : ℝ) (hσ : σ ≠ 0) :
    (∫ x : ℝ, Real.exp (c * x) *
        gaussianPDFReal 0 (Real.toNNReal (σ ^ 2)) x) =
      Real.exp (c ^ 2 * σ ^ 2 / 2) := by
  have hv : (0:ℝ) < σ ^ 2 := by positivity
  have hcoe : ((σ ^ 2).toNNReal : ℝ) = σ ^ 2 :=
    Real.coe_toNNReal _ (le_of_lt hv)
  have hvne : Real.toNNReal (σ ^ 2) ≠ 0 :=
    (Real.toNNReal_pos.mpr hv).ne'
  have hshift : (fun x : ℝ => Real.exp (c * x) *
      gaussianPDFReal 0 (Real.toNNReal (σ ^ 2)) x) =
      fun x : ℝ => Real.exp (c ^ 2 * σ ^ 2 / 2) *
        gaussianPDFReal (c * σ ^ 2) (Real.toNNReal (σ ^ 2)) x := by
    funext x
    simp only [gaussianPDFReal, hcoe, sub_zero]
    rw [mul_left_comm, mul_left_comm (Real.exp (c ^ 2 * σ ^ 2 / 2))]
    congr 1
    rw [← Real.exp_add, ← Real.exp_add]
    congr 1
    field_simp
    ring
  rw [hshift, integral_mul_left,
    integral_gaussianPDFReal_eq_one (c * σ ^ 2) hvne, mul_one]

theorem mar_corrected_eq (a σ g : ℝ) (ha : 0 < a) :
    mar_corrected a σ g =
      (a / Real.exp (0.5 * σ ^ 2)) * Real.exp (Real.log 10 * g) := by
  unfold mar_corrected noise_lognormal
  rw [Real.rpow_add (by norm_num : (0:ℝ) < 10),
    Real.rpow_logb (by norm_num) (by norm_num) ha,
    Real.rpow_def_of_pos (by norm_num : (0:ℝ) < 10)]
  ring

theorem gaussExp_mar_corrected (a σ : ℝ) (ha : 0 < a) (hσ : σ ≠ 0) :
    gaussExp σ (fun g => mar_corrected a σ g) =
      a * Real.exp (σ ^ 2 * ((Real.log 10) ^ 2 - 1) / 2) := by
  have hpoint : (fun x : ℝ => mar_corrected a σ x *
      gaussianPDFReal 0 (Real.toNNReal (σ ^ 2)) x) =
      fun x : ℝ => (a / Real.exp (0.5 * σ ^ 2)) *
        (Real.exp (Real.log 10 * x) *
          gaussianPDFReal 0 (Real.toNNReal (σ ^ 2)) x) := by
    funext x
    rw [mar_corrected_eq a σ x ha]
    ring
  unfold gaussExp
  rw [hpoint, integral_mul_left,
    integral_exp_mul_gaussianPDFReal σ (Real.log 10) hσ]
  rw [div_mul_eq_mul_div, mul_div_assoc, ← Real.exp_sub]
  congr 1
  ring

/-- C4 counterexample: for the constant array value 1 and `sigma = 1` the
expected value of the corrected perturbed array is
`exp(((ln 10)² − 1)/2) ≈ 2.1`, not 1: the `exp(0.5 σ²)` division does not
cancel the mean shift of noise injected in log10 space. -/
theorem noise_lognormal_mean_counterexample :
    (0:ℝ) < 1 ∧ (0:ℝ) < 1 ∧
      gaussExp 1 (fun g => mar_corrected 1 1 g) ≠ 1 := by
  refine ⟨one_pos, one_pos, ?_⟩
  rw [gaussExp_mar_corrected 1 1 one_pos one_ne_zero, one_mul]
  intro hcon
  have hzero : (1:ℝ) ^ 2 * ((Real.log 10) ^ 2 - 1) / 2 = 0 := by
    have h := congrArg Real.log hcon
    rwa [Real.log_exp, Real.log_one] at h
  norm_num at hzero
  have hlog : 1 < Real.log 10 := by
    rw [Real.lt_log_iff_exp_lt (by norm_num)]
    calc Real.exp 1 < 2.7182818286 := Real.exp_one_lt_d9
      _ < 10 := by norm_num
  nlinarith [hzero, hlog]

/-- C4 amended: for a positive constant array value and `sigma ≠ 0`, the
expectation over the normal draw of the noise-injected, `exp(0.5 σ²)`-divided
value equals the original times `exp(σ²((ln 10)² − 1)/2)`: the injected noise
lives in log10 space, so its mean shift is `exp(0.5 (σ ln 10)²)` and the
`exp(0.5 σ²)` correction cancels it only partially. -/
theorem noise_lognormal_mean (a σ : ℝ) (ha : 0 < a) (hσ : σ ≠ 0) :
    gaussExp σ (fun g => mar_corrected a σ g) =
      a * Real.exp (σ ^ 2 * ((Real.log 10) ^ 2 - 1) / 2) :=
  gaussExp_mar_corrected a σ ha hσ

/-- Witness for C4's amended statement at array value 1, `sigma = 1`. -/
theorem noise_lognormal_mean_witness :
    (0:ℝ) < 1 ∧ (1:ℝ) ≠ 0 ∧
      gaussExp 1 (fun g => mar_corrected 1 1 g) =
        1 * Real.exp (1 ^ 2 * ((Real.log 10) ^ 2 - 1) / 2) :=
  ⟨one_pos, one_ne_zero, noise_lognormal_mean 1 1 one_pos one_ne_zero⟩

end LogNormalNoise

end Ares
